import Mathlib

/-!
Shallow embedding of the CENC/PSSH initialization-data codec from
`script.module.slyguy/resources/modules/slyguy/util.py`: the functions
`cenc_init`, `parse_cenc_init` and `cenc_version1to0`, together with the
base64 transport layer they use.

Byte strings (Python `bytes`/`bytearray`) are modelled as `List Nat` whose
entries are below 256; u32 fields use explicit `% 2 ^ 32` arithmetic.  A
Python exception (from `struct.unpack` or `base64.b64decode`) is modelled by
`Option`: `none` is a raised error, `some` a returned value.
-/

/-- Byte strings as lists of naturals. -/
abbrev Bytes : Type := List Nat

/-- Every entry of the list is a genuine byte value (below 256). -/
def isBytes (l : Bytes) : Prop := ∀ b ∈ l, b < 256

instance (l : Bytes) : Decidable (isBytes l) := by
  unfold isBytes; infer_instance

/-- Python slice read `l[pos : pos + n]`: clamps at the end of the list and
never fails, exactly like Python slicing. -/
def pySlice (l : Bytes) (pos n : Nat) : Bytes := (l.drop pos).take n

/-- Python slice assignment `l[i : j] = x` for `i ≤ j`: replaces the selected
region by `x` (the region and `x` may have different lengths). -/
def setSlice (l : Bytes) (i j : Nat) (x : Bytes) : Bytes := l.take i ++ x ++ l.drop j

/-- `struct.pack(">I", n)`: big-endian u32, value taken mod `2 ^ 32`. -/
def be32 (n : Nat) : Bytes := [n / 16777216 % 256, n / 65536 % 256, n / 256 % 256, n % 256]

/-- `struct.pack("<I", n)`: little-endian u32, value taken mod `2 ^ 32`. -/
def le32 (n : Nat) : Bytes := [n % 256, n / 256 % 256, n / 65536 % 256, n / 16777216 % 256]

/-- `struct.unpack(">I", l)[0]`: fails unless `l` is exactly 4 bytes. -/
def unpackBE32 : Bytes → Option Nat
  | [a, b, c, d] => some (a * 16777216 + b * 65536 + c * 256 + d)
  | _ => none

/-- `struct.unpack("<I", l)[0]`: fails unless `l` is exactly 4 bytes. -/
def unpackLE32 : Bytes → Option Nat
  | [a, b, c, d] => some (d * 16777216 + c * 65536 + b * 256 + a)
  | _ => none

/-- The standard base64 alphabet: sextet value to ASCII code. -/
def b64char (n : Nat) : Nat :=
  if n < 26 then 65 + n
  else if n < 52 then 97 + (n - 26)
  else if n < 62 then 48 + (n - 52)
  else if n = 62 then 43 else 47

/-- Inverse of the base64 alphabet: ASCII code back to a sextet value. -/
def b64val (c : Nat) : Option Nat :=
  if 65 ≤ c ∧ c ≤ 90 then some (c - 65)
  else if 97 ≤ c ∧ c ≤ 122 then some (c - 97 + 26)
  else if 48 ≤ c ∧ c ≤ 57 then some (c - 48 + 52)
  else if c = 43 then some 62
  else if c = 47 then some 63 else none

/-- `base64.b64encode`: bytes to the ASCII codes of the standard-alphabet
padded base64 string (61 is the code of the padding character). -/
def b64encode : Bytes → Bytes
  | [] => []
  | [a] => [b64char (a / 4), b64char (a % 4 * 16), 61, 61]
  | [a, b] => [b64char (a / 4), b64char (a % 4 * 16 + b / 16), b64char (b % 16 * 4), 61]
  | a :: b :: c :: rest =>
      b64char (a / 4) :: b64char (a % 4 * 16 + b / 16) :: b64char (b % 16 * 4 + c / 64) ::
        b64char (c % 64) :: b64encode rest

/-- `base64.b64decode` on standard-alphabet padded input: four characters at a
time, honouring padding in the final quadruple; any other shape fails. -/
def b64decode : Bytes → Option Bytes
  | [] => some []
  | a :: b :: c :: d :: rest =>
      match b64val a, b64val b with
      | some va, some vb =>
          if c = 61 then
            if d = 61 ∧ rest = [] then some [va * 4 + vb / 16] else none
          else
            match b64val c with
            | some vc =>
                if d = 61 then
                  if rest = [] then some [va * 4 + vb / 16, vb % 16 * 16 + vc / 4] else none
                else
                  match b64val d with
                  | some vd =>
                      (b64decode rest).map
                        (fun r => (va * 4 + vb / 16) :: (vb % 16 * 16 + vc / 4) ::
                          (vc % 4 * 64 + vd) :: r)
                  | none => none
            | none => none
      | _, _ => none
  | _ => none

/-- Modelled from the spec: the well-known 16-byte Widevine scheme UUID.
This is the `WIDEVINE_UUID` constant imported by `util.py` from the
`constants` module, which is not among the sources. -/
def WIDEVINE_UUID : Bytes :=
  [237, 239, 139, 169, 121, 214, 74, 206, 163, 200, 39, 220, 213, 29, 33, 237]

/-- Modelled from the spec: the fixed 4-byte `pssh` box tag (ASCII codes of
the four tag characters).  This is the `WIDEVINE_PSSH` constant imported by
`util.py` from the `constants` module, which is not among the sources. -/
def WIDEVINE_PSSH : Bytes := [112, 115, 115, 104]

/-- The quadruple `(uuid, version, data, kids)` returned by
`parse_cenc_init`. -/
structure CencFields where
  uuid : Bytes
  version : Nat
  data : Bytes
  kids : List Bytes
  deriving DecidableEq

/-- Python `x or dflt` for an optional list argument: `None` and the empty
list are falsy and select the default. -/
def pyOr {α : Type} (x : Option (List α)) (dflt : List α) : List α :=
  match x with
  | none => dflt
  | some [] => dflt
  | some l => l

/-- The kid-writing loop of `cenc_init`: each iteration replaces a slice of
`len(uuid)` bytes at the current position by the kid and advances the
position by `len(kid)`. -/
def writeKids (uuidLen : Nat) (st : Bytes × Nat) : List Bytes → Bytes × Nat
  | [] => st
  | kid :: rest =>
      writeKids uuidLen (setSlice st.1 st.2 (st.2 + uuidLen) kid, st.2 + kid.length) rest

/-- The body of `cenc_init` after argument defaulting: build the PSSH box by
slice-assignment into a zero-filled buffer of the declared length, mirroring
the write sequence and position bookkeeping of the source. -/
def cenc_init_bytes (data uuid : Bytes) (kids : List Bytes) : Bytes :=
  let length := data.length + 32 + (if kids = [] then 0 else kids.length * 16 + 4)
  let buf0 := List.replicate length 0
  let buf1 := setSlice buf0 0 4 (be32 length)
  let buf2 := setSlice buf1 4 8 WIDEVINE_PSSH
  let buf3 := setSlice buf2 8 12 (le32 (if kids = [] then 0 else 1))
  let buf4 := setSlice buf3 12 (12 + uuid.length) uuid
  let pos4 := 12 + uuid.length
  if kids = [] then
    let buf5 := setSlice buf4 pos4 (pos4 + 4) (be32 data.length)
    setSlice buf5 (pos4 + 4) (pos4 + 4 + data.length) data
  else
    let buf5 := setSlice buf4 pos4 (pos4 + 4) (be32 kids.length)
    let st := writeKids uuid.length (buf5, pos4 + 4) kids
    let buf6 := setSlice st.1 st.2 (st.2 + 4) (be32 data.length)
    setSlice buf6 (st.2 + 4) (st.2 + 4 + data.length) data

/-- `cenc_init(data=None, uuid=None, kids=None)`: apply Python falsy
defaulting (empty payload, the Widevine UUID, empty kid list), build the box
bytes and return the base64 string. -/
def cenc_init (data uuid : Option Bytes) (kids : Option (List Bytes)) : Bytes :=
  b64encode (cenc_init_bytes (pyOr data []) (pyOr uuid WIDEVINE_UUID) (pyOr kids []))

/-- The kid-reading loop of `parse_cenc_init`: `num_kids` sixteen-byte slices
taken in order (Python slicing, so a slice near the end may be short). -/
def parse_cenc_kids (init_data : Bytes) (pos : Nat) : Nat → List Bytes
  | 0 => []
  | n + 1 => pySlice init_data pos 16 :: parse_cenc_kids init_data (pos + 16) n

/-- The final reads of `parse_cenc_init`: the payload length (a failing
unpack if fewer than 4 bytes remain) and then the payload slice. -/
def parse_cenc_tail (init_data : Bytes) (pos : Nat) (uuid : Bytes) (version : Nat)
    (kids : List Bytes) : Option CencFields :=
  match unpackBE32 (pySlice init_data pos 4) with
  | none => none
  | some data_length => some ⟨uuid, version, pySlice init_data (pos + 4) data_length, kids⟩

/-- `parse_cenc_init` after base64 decoding: strict sequential field reads at
the positions the source maintains (0, 4, 8, 12, 28, 32, ...). -/
def parse_cenc_bytes (init_data : Bytes) : Option CencFields :=
  match unpackBE32 (pySlice init_data 0 4) with
  | none => none
  | some _length =>
    match unpackBE32 (pySlice init_data 4 4) with
    | none => none
    | some _pssh =>
      match unpackLE32 (pySlice init_data 8 4) with
      | none => none
      | some version =>
        if version = 1 then
          match unpackBE32 (pySlice init_data 28 4) with
          | none => none
          | some num_kids =>
              parse_cenc_tail init_data (32 + num_kids * 16) (pySlice init_data 12 16)
                version (parse_cenc_kids init_data 32 num_kids)
        else
          parse_cenc_tail init_data 28 (pySlice init_data 12 16) version []

/-- `parse_cenc_init(b64string)`: base64-decode, then parse the box bytes. -/
def parse_cenc_init (b64string : Bytes) : Option CencFields :=
  match b64decode b64string with
  | none => none
  | some init_data => parse_cenc_bytes init_data

/-- `cenc_version1to0(cenc)`: parse, return the input unchanged unless the
box is version 1, has a payload and carries the Widevine UUID; otherwise
re-encode the bare payload as a version-0 box. -/
def cenc_version1to0 (cenc : Bytes) : Option Bytes :=
  match parse_cenc_init cenc with
  | none => none
  | some f =>
    if f.version ≠ 1 ∨ f.data = [] ∨ f.uuid ≠ WIDEVINE_UUID then some cenc
    else some (cenc_init (some f.data) none none)

/-- The declared length computed by `cenc_init`. -/
def cencLen (data : Bytes) (kids : List Bytes) : Nat :=
  data.length + 32 + (if kids = [] then 0 else kids.length * 16 + 4)

/-- The optional kid region of a box: count field followed by the kids. -/
def kidRegion (kids : List Bytes) : Bytes :=
  if kids = [] then [] else be32 kids.length ++ kids.flatten

/-- The flat concatenation form of the box built by `cenc_init_bytes`. -/
def cencBox (data uuid : Bytes) (kids : List Bytes) : Bytes :=
  be32 (cencLen data kids) ++ (WIDEVINE_PSSH ++ (le32 (if kids = [] then 0 else 1) ++
    (uuid ++ (kidRegion kids ++ (be32 data.length ++ data)))))

/-! ### Basic facts about slices and u32 fields -/

theorem length_be32 (n : Nat) : (be32 n).length = 4 := rfl

theorem length_le32 (n : Nat) : (le32 n).length = 4 := rfl

theorem pySlice_exact (pre x suf : Bytes) (pos n : Nat)
    (hpos : pos = pre.length) (hn : n = x.length) :
    pySlice (pre ++ (x ++ suf)) pos n = x := by
  subst hpos hn
  unfold pySlice
  rw [List.drop_left, List.take_left]

theorem length_pySlice (l : Bytes) (pos n : Nat) :
    (pySlice l pos n).length = min n (l.length - pos) := by
  simp [pySlice]

theorem pySlice_take_of_le (l : Bytes) (pos n t : Nat) (h : pos + n ≤ t) :
    pySlice (l.take t) pos n = pySlice l pos n := by
  unfold pySlice
  rw [List.drop_take, List.take_take]
  congr 1
  omega

theorem unpackBE32_eq_none {l : Bytes} (h : l.length ≠ 4) : unpackBE32 l = none := by
  rcases l with _ | ⟨a, _ | ⟨b, _ | ⟨c, _ | ⟨d, _ | ⟨e, l⟩⟩⟩⟩⟩ <;> simp_all [unpackBE32]

theorem unpackLE32_eq_none {l : Bytes} (h : l.length ≠ 4) : unpackLE32 l = none := by
  rcases l with _ | ⟨a, _ | ⟨b, _ | ⟨c, _ | ⟨d, _ | ⟨e, l⟩⟩⟩⟩⟩ <;> simp_all [unpackLE32]

theorem unpackBE32_of_length {l : Bytes} (h : l.length = 4) :
    ∃ v, unpackBE32 l = some v := by
  rcases l with _ | ⟨a, _ | ⟨b, _ | ⟨c, _ | ⟨d, _ | ⟨e, l⟩⟩⟩⟩⟩ <;>
    first
    | exact ⟨_, rfl⟩
    | simp_all

theorem unpackBE32_lt {l : Bytes} {v : Nat} (h : unpackBE32 l = some v)
    (hb : isBytes l) : v < 4294967296 := by
  rcases l with _ | ⟨a, _ | ⟨b, _ | ⟨c, _ | ⟨d, _ | ⟨e, l⟩⟩⟩⟩⟩ <;>
    simp_all [unpackBE32, isBytes]
  omega

theorem unpackBE32_be32 (n : Nat) : unpackBE32 (be32 n) = some (n % 4294967296) := by
  simp only [be32, unpackBE32]
  congr 1
  omega

theorem unpackLE32_le32 (n : Nat) : unpackLE32 (le32 n) = some (n % 4294967296) := by
  simp only [le32, unpackLE32]
  congr 1
  omega

/-! ### The base64 layer -/

theorem b64val_b64char {n : Nat} (h : n < 64) : b64val (b64char n) = some n := by
  interval_cases n <;> rfl

theorem b64char_ne_pad (n : Nat) : b64char n ≠ 61 := by
  unfold b64char
  split_ifs <;> omega

theorem b64val_lt {c v : Nat} (h : b64val c = some v) : v < 64 := by
  unfold b64val at h
  split_ifs at h <;> simp_all <;> omega

theorem b64decode_b64encode (l : Bytes) (h : isBytes l) :
    b64decode (b64encode l) = some l := by
  induction l using b64encode.induct with
  | case1 => rfl
  | case2 a =>
      have ha : a < 256 := h a (by simp)
      have h1 : b64val (b64char (a / 4)) = some (a / 4) := b64val_b64char (by omega)
      have h2 : b64val (b64char (a % 4 * 16)) = some (a % 4 * 16) := b64val_b64char (by omega)
      simp only [b64encode, b64decode, h1, h2, if_pos rfl, and_self, if_pos]
      congr 2
      omega
  | case3 a b =>
      have ha : a < 256 := h a (by simp)
      have hb : b < 256 := h b (by simp)
      have h1 : b64val (b64char (a / 4)) = some (a / 4) := b64val_b64char (by omega)
      have h2 : b64val (b64char (a % 4 * 16 + b / 16)) = some (a % 4 * 16 + b / 16) :=
        b64val_b64char (by omega)
      have h3 : b64val (b64char (b % 16 * 4)) = some (b % 16 * 4) := b64val_b64char (by omega)
      simp only [b64encode, b64decode, h1, h2, h3, if_neg (b64char_ne_pad _), if_pos rfl]
      simp only [if_true, Option.some.injEq, List.cons.injEq, and_true]
      omega
  | case4 a b c rest ih =>
      have ha : a < 256 := h a (by simp)
      have hb : b < 256 := h b (by simp)
      have hc : c < 256 := h c (by simp)
      have hrest : isBytes rest := fun x hx => h x (by simp [hx])
      have h1 : b64val (b64char (a / 4)) = some (a / 4) := b64val_b64char (by omega)
      have h2 : b64val (b64char (a % 4 * 16 + b / 16)) = some (a % 4 * 16 + b / 16) :=
        b64val_b64char (by omega)
      have h3 : b64val (b64char (b % 16 * 4 + c / 64)) = some (b % 16 * 4 + c / 64) :=
        b64val_b64char (by omega)
      have h4 : b64val (b64char (c % 64)) = some (c % 64) := b64val_b64char (by omega)
      simp only [b64encode, b64decode, h1, h2, h3, h4, if_neg (b64char_ne_pad _),
        ih hrest, Option.map_some']
      simp only [Option.some.injEq, List.cons.injEq, and_true]
      omega

theorem isBytes_of_b64decode (s : Bytes) : ∀ l, b64decode s = some l → isBytes l := by
  induction s using b64decode.induct with
  | case1 =>
      intro l h
      simp only [b64decode, Option.some.injEq] at h
      subst h
      intro x hx
      simp at hx
  | case2 a b d rest va vb hvb hva hcond =>
      obtain ⟨hd, hrest⟩ := hcond
      subst hd hrest
      intro l h
      simp only [b64decode, hva, hvb, eq_self_iff_true, and_self, if_true,
        Option.some.injEq] at h
      subst h
      have h1 := b64val_lt hva
      have h2 := b64val_lt hvb
      intro x hx
      simp only [List.mem_singleton] at hx
      omega
  | case3 a b d rest va vb hvb hva hcond =>
      intro l h
      simp only [b64decode, hva, hvb, eq_self_iff_true, if_true, if_neg hcond] at h
      exact Option.noConfusion h
  | case4 a b c va vb hvb hva hc61 vc hvc =>
      intro l h
      simp only [b64decode, hva, hvb, hvc, if_neg hc61, eq_self_iff_true, if_true,
        Option.some.injEq] at h
      subst h
      have h1 := b64val_lt hva
      have h2 := b64val_lt hvb
      have h3 := b64val_lt hvc
      intro x hx
      simp only [List.mem_cons, List.not_mem_nil, or_false] at hx
      rcases hx with hx | hx <;> omega
  | case5 a b c rest va vb hvb hva hc61 vc hvc hrest =>
      intro l h
      simp only [b64decode, hva, hvb, hvc, if_neg hc61, eq_self_iff_true, if_true,
        if_neg hrest] at h
      exact Option.noConfusion h
  | case6 a b c d rest va vb hvb hva hc61 vc hvc hd61 vd hvd ih =>
      intro l h
      simp only [b64decode, hva, hvb, hvc, hvd, if_neg hc61, if_neg hd61] at h
      cases hr : b64decode rest with
      | none => rw [hr] at h; exact Option.noConfusion h
      | some r =>
          rw [hr] at h
          simp only [Option.map_some', Option.some.injEq] at h
          subst h
          have h1 := b64val_lt hva
          have h2 := b64val_lt hvb
          have h3 := b64val_lt hvc
          have h4 := b64val_lt hvd
          have hrB := ih r hr
          intro x hx
          simp only [List.mem_cons] at hx
          rcases hx with hx | hx | hx | hx
          · omega
          · omega
          · omega
          · exact hrB x hx
  | case7 a b c d rest va vb hvb hva hc61 vc hvc hd61 hvd =>
      intro l h
      simp only [b64decode, hva, hvb, hvc, hvd, if_neg hc61, if_neg hd61] at h
      exact Option.noConfusion h
  | case8 a b c d rest va vb hvb hva hc61 hvc =>
      intro l h
      simp only [b64decode, hva, hvb, hvc, if_neg hc61] at h
      exact Option.noConfusion h
  | case9 a b c d rest hfail =>
      intro l h
      cases hA : b64val a with
      | none => simp only [b64decode, hA] at h; exact Option.noConfusion h
      | some va =>
          cases hB : b64val b with
          | none => simp only [b64decode, hA, hB] at h; exact Option.noConfusion h
          | some vb => exact absurd (hfail va vb hA hB) not_false
  | case10 t hnil hquad =>
      intro l h
      rcases t with _ | ⟨a, _ | ⟨b, _ | ⟨c, _ | ⟨d, rest⟩⟩⟩⟩
      · exact absurd rfl hnil
      · simp only [b64decode] at h; exact Option.noConfusion h
      · simp only [b64decode] at h; exact Option.noConfusion h
      · simp only [b64decode] at h; exact Option.noConfusion h
      · exact absurd rfl (hquad a b c d rest)

/-! ### Normal form of the encoder output -/

theorem setSlice_fill (pre x : Bytes) (m i j : Nat)
    (hi : i = pre.length) (hj : j = i + x.length) :
    setSlice (pre ++ List.replicate m 0) i j x =
      (pre ++ x) ++ List.replicate (m - x.length) 0 := by
  subst hi hj
  unfold setSlice
  rw [List.take_left]
  have hd : (pre ++ List.replicate m 0).drop (pre.length + x.length) =
      (List.replicate m 0).drop x.length := by
    rw [List.drop_append]
  rw [hd, List.drop_replicate, List.append_assoc]

theorem flatten_length_of_uniform (k : List Bytes) (hk : ∀ kid ∈ k, kid.length = 16) :
    k.flatten.length = 16 * k.length := by
  induction k with
  | nil => simp
  | cons kid rest ih =>
      have h1 : kid.length = 16 := hk kid (by simp)
      have h2 : ∀ kid ∈ rest, kid.length = 16 := fun x hx => hk x (by simp [hx])
      simp [List.flatten_cons, h1, ih h2]
      ring

theorem writeKids_eq (k : List Bytes) (hk : ∀ kid ∈ k, kid.length = 16)
    (pre : Bytes) (m pos : Nat) (hpos : pos = pre.length) :
    writeKids 16 (pre ++ List.replicate m 0, pos) k =
      (pre ++ k.flatten ++ List.replicate (m - 16 * k.length) 0, pos + 16 * k.length) := by
  induction k generalizing pre m pos with
  | nil => simp [writeKids]
  | cons kid rest ih =>
      have h1 : kid.length = 16 := hk kid (by simp)
      have h2 : ∀ x ∈ rest, x.length = 16 := fun x hx => hk x (by simp [hx])
      rw [writeKids]
      have hset : setSlice (pre ++ List.replicate m 0) pos (pos + 16) kid =
          (pre ++ kid) ++ List.replicate (m - 16) 0 := by
        rw [setSlice_fill pre kid m pos (pos + 16) hpos (by omega), h1]
      simp only [hset, h1]
      rw [ih h2 (pre ++ kid) (m - 16) (pos + 16) (by simp [hpos, h1])]
      simp only [Prod.mk.injEq, List.flatten_cons, List.length_cons, List.append_assoc]
      refine ⟨?_, by omega⟩
      have hm : m - 16 - 16 * rest.length = m - 16 * (rest.length + 1) := by omega
      rw [hm]

theorem setSlice_fill0 (x : Bytes) (m j n : Nat) (hj : j = x.length)
    (hn : n = m - x.length) :
    setSlice (List.replicate m 0) 0 j x = x ++ List.replicate n 0 := by
  subst hj hn
  unfold setSlice
  simp [List.drop_replicate]

theorem setSlice_fill' (pre x : Bytes) (m i j n : Nat)
    (hi : i = pre.length) (hj : j = i + x.length) (hn : n = m - x.length) :
    setSlice (pre ++ List.replicate m 0) i j x = (pre ++ x) ++ List.replicate n 0 := by
  subst hn
  rw [setSlice_fill pre x m i j hi hj]

theorem length_WIDEVINE_PSSH : WIDEVINE_PSSH.length = 4 := rfl

theorem length_WIDEVINE_UUID : WIDEVINE_UUID.length = 16 := rfl

theorem cenc_init_bytes_eq (data uuid : Bytes) (kids : List Bytes)
    (hu : uuid.length = 16) (hk : ∀ kid ∈ kids, kid.length = 16) :
    cenc_init_bytes data uuid kids = cencBox data uuid kids := by
  rcases eq_or_ne kids [] with hkids | hkids
  · subst hkids
    simp only [cenc_init_bytes, cencBox, cencLen, kidRegion, hu, eq_self_iff_true, if_true,
      List.length_nil, Nat.reduceAdd, add_zero, List.nil_append]
    rw [setSlice_fill0 (be32 (List.length data + 32)) (List.length data + 32) 4
      (List.length data + 28) (length_be32 _).symm (by simp only [length_be32] <;> omega)]
    rw [setSlice_fill' (be32 (List.length data + 32)) WIDEVINE_PSSH (List.length data + 28)
      4 8 (List.length data + 24) (length_be32 _).symm
      (by simp only [length_WIDEVINE_PSSH] <;> omega) (by simp only [length_WIDEVINE_PSSH] <;> omega)]
    rw [setSlice_fill' (be32 (List.length data + 32) ++ WIDEVINE_PSSH) (le32 0)
      (List.length data + 24) 8 12 (List.length data + 20)
      (by simp only [List.length_append, length_be32, length_WIDEVINE_PSSH])
      (by simp only [length_le32] <;> omega) (by simp only [length_le32] <;> omega)]
    rw [setSlice_fill' (be32 (List.length data + 32) ++ WIDEVINE_PSSH ++ le32 0) uuid
      (List.length data + 20) 12 28 (List.length data + 4)
      (by simp only [List.length_append, length_be32, length_WIDEVINE_PSSH, length_le32])
      (by omega) (by omega)]
    rw [setSlice_fill' (be32 (List.length data + 32) ++ WIDEVINE_PSSH ++ le32 0 ++ uuid)
      (be32 (List.length data)) (List.length data + 4) 28 32 (List.length data)
      (by simp only [List.length_append, length_be32, length_WIDEVINE_PSSH, length_le32, hu])
      (by simp only [length_be32] <;> omega) (by simp only [length_be32] <;> omega)]
    rw [setSlice_fill' (be32 (List.length data + 32) ++ WIDEVINE_PSSH ++ le32 0 ++ uuid ++
      be32 (List.length data)) data (List.length data) 32 (32 + List.length data) 0
      (by simp only [List.length_append, length_be32, length_WIDEVINE_PSSH, length_le32, hu])
      (by omega) (by omega)]
    simp [List.append_assoc]
  · simp only [cenc_init_bytes, cencBox, cencLen, kidRegion, hu, eq_self_iff_true, if_true,
      if_neg hkids, Nat.reduceAdd, add_zero, List.nil_append]
    rw [setSlice_fill0 (be32 (List.length data + 32 + (kids.length * 16 + 4)))
      (List.length data + 32 + (kids.length * 16 + 4)) 4
      (List.length data + kids.length * 16 + 32) (length_be32 _).symm
      (by simp only [length_be32] <;> omega)]
    rw [setSlice_fill' (be32 (List.length data + 32 + (kids.length * 16 + 4))) WIDEVINE_PSSH
      (List.length data + kids.length * 16 + 32) 4 8 (List.length data + kids.length * 16 + 28)
      (length_be32 _).symm (by simp only [length_WIDEVINE_PSSH] <;> omega) (by simp only [length_WIDEVINE_PSSH] <;> omega)]
    rw [setSlice_fill' (be32 (List.length data + 32 + (kids.length * 16 + 4)) ++ WIDEVINE_PSSH)
      (le32 1) (List.length data + kids.length * 16 + 28) 8 12
      (List.length data + kids.length * 16 + 24)
      (by simp only [List.length_append, length_be32, length_WIDEVINE_PSSH])
      (by simp only [length_le32] <;> omega) (by simp only [length_le32] <;> omega)]
    rw [setSlice_fill' (be32 (List.length data + 32 + (kids.length * 16 + 4)) ++
      WIDEVINE_PSSH ++ le32 1) uuid (List.length data + kids.length * 16 + 24) 12 28
      (List.length data + kids.length * 16 + 8)
      (by simp only [List.length_append, length_be32, length_WIDEVINE_PSSH, length_le32])
      (by omega) (by omega)]
    rw [setSlice_fill' (be32 (List.length data + 32 + (kids.length * 16 + 4)) ++
      WIDEVINE_PSSH ++ le32 1 ++ uuid) (be32 kids.length)
      (List.length data + kids.length * 16 + 8) 28 32
      (List.length data + kids.length * 16 + 4)
      (by simp only [List.length_append, length_be32, length_WIDEVINE_PSSH, length_le32, hu])
      (by simp only [length_be32] <;> omega) (by simp only [length_be32] <;> omega)]
    rw [writeKids_eq kids hk (be32 (List.length data + 32 + (kids.length * 16 + 4)) ++
      WIDEVINE_PSSH ++ le32 1 ++ uuid ++ be32 kids.length)
      (List.length data + kids.length * 16 + 4) 32
      (by simp only [List.length_append, length_be32, length_WIDEVINE_PSSH, length_le32, hu])]
    dsimp only
    rw [setSlice_fill' (be32 (List.length data + 32 + (kids.length * 16 + 4)) ++
      WIDEVINE_PSSH ++ le32 1 ++ uuid ++ be32 kids.length ++ kids.flatten)
      (be32 (List.length data))
      (List.length data + kids.length * 16 + 4 - 16 * kids.length) (32 + 16 * kids.length)
      (32 + 16 * kids.length + 4) (List.length data)
      (by simp only [List.length_append, length_be32, length_WIDEVINE_PSSH, length_le32, hu,
        flatten_length_of_uniform kids hk] <;> omega)
      (by simp only [length_be32] <;> omega) (by simp only [length_be32] <;> omega)]
    rw [setSlice_fill' (be32 (List.length data + 32 + (kids.length * 16 + 4)) ++
      WIDEVINE_PSSH ++ le32 1 ++ uuid ++ be32 kids.length ++ kids.flatten ++
      be32 (List.length data)) data (List.length data) (32 + 16 * kids.length + 4)
      (32 + 16 * kids.length + 4 + List.length data) 0
      (by simp only [List.length_append, length_be32, length_WIDEVINE_PSSH, length_le32, hu,
        flatten_length_of_uniform kids hk] <;> omega)
      (by omega) (by omega)]
    simp [List.append_assoc]

/-! ### Parsing a well-formed box -/

theorem pySlice_at (buf pre x suf : Bytes) (pos n : Nat)
    (hbuf : buf = pre ++ (x ++ suf)) (hpos : pos = pre.length) (hn : n = x.length) :
    pySlice buf pos n = x := by
  subst hbuf
  exact pySlice_exact pre x suf pos n hpos hn

theorem parse_kids_exact (k : List Bytes) (hk : ∀ kid ∈ k, kid.length = 16)
    (pre suf : Bytes) (pos : Nat) (hpos : pos = pre.length) :
    parse_cenc_kids (pre ++ (k.flatten ++ suf)) pos k.length = k := by
  induction k generalizing pre pos with
  | nil => simp [parse_cenc_kids]
  | cons kid rest ih =>
      have h1 : kid.length = 16 := hk kid (by simp)
      have h2 : ∀ x ∈ rest, x.length = 16 := fun x hx => hk x (by simp [hx])
      have hbuf : pre ++ ((kid :: rest).flatten ++ suf) =
          pre ++ (kid ++ (rest.flatten ++ suf)) := by
        simp [List.flatten_cons, List.append_assoc]
      rw [List.length_cons, parse_cenc_kids, hbuf]
      congr 1
      · exact pySlice_exact pre kid (rest.flatten ++ suf) pos 16 hpos h1.symm
      · have hre : pre ++ (kid ++ (rest.flatten ++ suf)) =
            (pre ++ kid) ++ (rest.flatten ++ suf) := by
          simp [List.append_assoc]
        rw [hre]
        exact ih h2 (pre ++ kid) (pos + 16) (by simp [hpos, h1])

theorem parse_kids_at (buf : Bytes) (k : List Bytes) (hk : ∀ kid ∈ k, kid.length = 16)
    (pre suf : Bytes) (pos n : Nat) (hbuf : buf = pre ++ (k.flatten ++ suf))
    (hpos : pos = pre.length) (hn : n = k.length) :
    parse_cenc_kids buf pos n = k := by
  subst hbuf hn
  exact parse_kids_exact k hk pre suf pos hpos

theorem parse_cencBox (lf data uuid tr : Bytes) (kids : List Bytes)
    (hlf : lf.length = 4) (hu : uuid.length = 16) (hk : ∀ kid ∈ kids, kid.length = 16)
    (hkc : kids.length < 4294967296) (hd : data.length < 4294967296) :
    parse_cenc_bytes (lf ++ (WIDEVINE_PSSH ++ (le32 (if kids = [] then 0 else 1) ++
      (uuid ++ (kidRegion kids ++ (be32 data.length ++ (data ++ tr))))))) =
      some ⟨uuid, (if kids = [] then 0 else 1), data, kids⟩ := by
  rcases eq_or_ne kids [] with hkids | hkids
  · subst hkids
    simp only [kidRegion, eq_self_iff_true, if_true, List.nil_append, List.flatten_nil]
    set buf := lf ++ (WIDEVINE_PSSH ++ (le32 0 ++ (uuid ++ (be32 data.length ++
      (data ++ tr))))) with hbuf
    obtain ⟨lv, hlv⟩ := unpackBE32_of_length hlf
    have h0 : pySlice buf 0 4 = lf :=
      pySlice_at buf [] lf (WIDEVINE_PSSH ++ (le32 0 ++ (uuid ++ (be32 data.length ++
        (data ++ tr))))) 0 4 (by simp [hbuf]) rfl hlf.symm
    have h1 : pySlice buf 4 4 = WIDEVINE_PSSH :=
      pySlice_at buf lf WIDEVINE_PSSH (le32 0 ++ (uuid ++ (be32 data.length ++ (data ++ tr))))
        4 4 (by simp [hbuf]) hlf.symm rfl
    have h2 : pySlice buf 8 4 = le32 0 :=
      pySlice_at buf (lf ++ WIDEVINE_PSSH) (le32 0) (uuid ++ (be32 data.length ++
        (data ++ tr))) 8 4 (by simp [hbuf, List.append_assoc])
        (by simp [hlf, length_WIDEVINE_PSSH]) rfl
    have h3 : pySlice buf 12 16 = uuid :=
      pySlice_at buf (lf ++ WIDEVINE_PSSH ++ le32 0) uuid (be32 data.length ++ (data ++ tr))
        12 16 (by simp [hbuf, List.append_assoc])
        (by simp [hlf, length_WIDEVINE_PSSH, length_le32]) hu.symm
    have h4 : pySlice buf 28 4 = be32 data.length :=
      pySlice_at buf (lf ++ WIDEVINE_PSSH ++ le32 0 ++ uuid) (be32 data.length) (data ++ tr)
        28 4 (by simp [hbuf, List.append_assoc])
        (by simp [hlf, length_WIDEVINE_PSSH, length_le32, hu]) rfl
    have h5 : pySlice buf 32 data.length = data :=
      pySlice_at buf (lf ++ WIDEVINE_PSSH ++ le32 0 ++ uuid ++ be32 data.length) data tr
        (28 + 4) data.length (by simp [hbuf, List.append_assoc])
        (by simp [hlf, length_WIDEVINE_PSSH, length_le32, length_be32, hu]) rfl
    obtain ⟨pv, hpv⟩ := unpackBE32_of_length (length_WIDEVINE_PSSH)
    simp only [parse_cenc_bytes, parse_cenc_tail, h0, h1, h2, h3, h4, h5, hlv, hpv,
      unpackLE32_le32, unpackBE32_be32, Nat.zero_mod, Nat.mod_eq_of_lt hd]
    norm_num
  · simp only [kidRegion, if_neg hkids]
    set buf := lf ++ (WIDEVINE_PSSH ++ (le32 1 ++ (uuid ++ ((be32 kids.length ++
      kids.flatten) ++ (be32 data.length ++ (data ++ tr)))))) with hbuf
    obtain ⟨lv, hlv⟩ := unpackBE32_of_length hlf
    obtain ⟨pv, hpv⟩ := unpackBE32_of_length (length_WIDEVINE_PSSH)
    have hfl : kids.flatten.length = 16 * kids.length := flatten_length_of_uniform kids hk
    have h0 : pySlice buf 0 4 = lf :=
      pySlice_at buf [] lf (WIDEVINE_PSSH ++ (le32 1 ++ (uuid ++ ((be32 kids.length ++
        kids.flatten) ++ (be32 data.length ++ (data ++ tr)))))) 0 4 (by simp [hbuf]) rfl
        hlf.symm
    have h1 : pySlice buf 4 4 = WIDEVINE_PSSH :=
      pySlice_at buf lf WIDEVINE_PSSH (le32 1 ++ (uuid ++ ((be32 kids.length ++
        kids.flatten) ++ (be32 data.length ++ (data ++ tr))))) 4 4 (by simp [hbuf])
        hlf.symm rfl
    have h2 : pySlice buf 8 4 = le32 1 :=
      pySlice_at buf (lf ++ WIDEVINE_PSSH) (le32 1) (uuid ++ ((be32 kids.length ++
        kids.flatten) ++ (be32 data.length ++ (data ++ tr)))) 8 4
        (by simp [hbuf, List.append_assoc]) (by simp [hlf, length_WIDEVINE_PSSH]) rfl
    have h3 : pySlice buf 12 16 = uuid :=
      pySlice_at buf (lf ++ WIDEVINE_PSSH ++ le32 1) uuid ((be32 kids.length ++
        kids.flatten) ++ (be32 data.length ++ (data ++ tr))) 12 16
        (by simp [hbuf, List.append_assoc]) (by simp [hlf, length_WIDEVINE_PSSH, length_le32])
        hu.symm
    have h4 : pySlice buf 28 4 = be32 kids.length :=
      pySlice_at buf (lf ++ WIDEVINE_PSSH ++ le32 1 ++ uuid) (be32 kids.length)
        (kids.flatten ++ (be32 data.length ++ (data ++ tr))) 28 4
        (by simp [hbuf, List.append_assoc])
        (by simp [hlf, length_WIDEVINE_PSSH, length_le32, hu]) rfl
    have hkid : parse_cenc_kids buf 32 kids.length = kids :=
      parse_kids_at buf kids hk (lf ++ WIDEVINE_PSSH ++ le32 1 ++ uuid ++ be32 kids.length)
        (be32 data.length ++ (data ++ tr)) 32 kids.length
        (by simp [hbuf, List.append_assoc])
        (by simp [hlf, length_WIDEVINE_PSSH, length_le32, length_be32, hu]) rfl
    have h5 : pySlice buf (32 + kids.length * 16) 4 = be32 data.length :=
      pySlice_at buf (lf ++ WIDEVINE_PSSH ++ le32 1 ++ uuid ++ be32 kids.length ++
        kids.flatten) (be32 data.length) (data ++ tr) (32 + kids.length * 16) 4
        (by simp [hbuf, List.append_assoc])
        (by simp [hlf, length_WIDEVINE_PSSH, length_le32, length_be32, hu, hfl]; omega) rfl
    have h6 : pySlice buf (32 + kids.length * 16 + 4) data.length = data :=
      pySlice_at buf (lf ++ WIDEVINE_PSSH ++ le32 1 ++ uuid ++ be32 kids.length ++
        kids.flatten ++ be32 data.length) data tr (32 + kids.length * 16 + 4) data.length
        (by simp [hbuf, List.append_assoc])
        (by simp [hlf, length_WIDEVINE_PSSH, length_le32, length_be32, hu, hfl]; omega) rfl
    simp only [parse_cenc_bytes, parse_cenc_tail, h0, h1, h2, h3, h4, h5, h6, hkid, hlv, hpv,
      unpackLE32_le32, unpackBE32_be32, Nat.mod_eq_of_lt hkc, Nat.mod_eq_of_lt hd]
    norm_num

/-! ### Assorted helper lemmas -/

theorem pyOr_none {α : Type} (dflt : List α) : pyOr none dflt = dflt := rfl

theorem pyOr_some_nil {α : Type} (dflt : List α) : pyOr (some []) dflt = dflt := rfl

theorem pyOr_some_ne {α : Type} (l dflt : List α) (h : l ≠ []) : pyOr (some l) dflt = l := by
  cases l with
  | nil => exact absurd rfl h
  | cons a t => rfl

theorem pyOr_self (p : Bytes) : pyOr (some p) [] = p := by
  cases p with
  | nil => rfl
  | cons a t => rfl

theorem cencBox_append (data uuid : Bytes) (kids : List Bytes) (tr : Bytes) :
    cencBox data uuid kids ++ tr = be32 (cencLen data kids) ++ (WIDEVINE_PSSH ++
      (le32 (if kids = [] then 0 else 1) ++ (uuid ++ (kidRegion kids ++
      (be32 data.length ++ (data ++ tr)))))) := by
  simp [cencBox, List.append_assoc]

theorem cencBox_length (data uuid : Bytes) (kids : List Bytes)
    (hu : uuid.length = 16) (hk : ∀ kid ∈ kids, kid.length = 16) :
    (cencBox data uuid kids).length = cencLen data kids := by
  rcases eq_or_ne kids [] with hkids | hkids
  · subst hkids
    simp [cencBox, cencLen, kidRegion, length_be32, length_le32, length_WIDEVINE_PSSH, hu]
    omega
  · simp [cencBox, cencLen, kidRegion, if_neg hkids, length_be32, length_le32,
      length_WIDEVINE_PSSH, hu, flatten_length_of_uniform kids hk]
    omega

theorem isBytes_nil : isBytes [] := by
  intro x hx
  simp at hx

theorem isBytes_append {a b : Bytes} (ha : isBytes a) (hb : isBytes b) :
    isBytes (a ++ b) := by
  intro x hx
  rcases List.mem_append.mp hx with h | h
  · exact ha x h
  · exact hb x h

theorem isBytes_be32 (n : Nat) : isBytes (be32 n) := by
  intro x hx
  simp only [be32, List.mem_cons, List.not_mem_nil, or_false] at hx
  rcases hx with h | h | h | h <;> omega

theorem isBytes_le32 (n : Nat) : isBytes (le32 n) := by
  intro x hx
  simp only [le32, List.mem_cons, List.not_mem_nil, or_false] at hx
  rcases hx with h | h | h | h <;> omega

theorem isBytes_WIDEVINE_PSSH : isBytes WIDEVINE_PSSH := by decide

theorem isBytes_WIDEVINE_UUID : isBytes WIDEVINE_UUID := by decide

theorem isBytes_flatten {k : List Bytes} (h : ∀ kid ∈ k, isBytes kid) :
    isBytes k.flatten := by
  intro x hx
  rw [List.mem_flatten] at hx
  obtain ⟨l, hl, hx⟩ := hx
  exact h l hl x hx

theorem isBytes_kidRegion {k : List Bytes} (h : ∀ kid ∈ k, isBytes kid) :
    isBytes (kidRegion k) := by
  unfold kidRegion
  split
  · exact isBytes_nil
  · exact isBytes_append (isBytes_be32 _) (isBytes_flatten h)

theorem isBytes_cencBox {data uuid : Bytes} {kids : List Bytes}
    (hd : isBytes data) (hu : isBytes uuid) (hk : ∀ kid ∈ kids, isBytes kid) :
    isBytes (cencBox data uuid kids) := by
  unfold cencBox
  exact isBytes_append (isBytes_be32 _) (isBytes_append isBytes_WIDEVINE_PSSH
    (isBytes_append (isBytes_le32 _) (isBytes_append hu
      (isBytes_append (isBytes_kidRegion hk) (isBytes_append (isBytes_be32 _) hd)))))

theorem isBytes_take {l : Bytes} (h : isBytes l) (t : Nat) : isBytes (l.take t) :=
  fun x hx => h x (List.mem_of_mem_take hx)

theorem parse_cenc_tail_some {b uuid : Bytes} {pos version : Nat} {kids : List Bytes}
    {f : CencFields} (h : parse_cenc_tail b pos uuid version kids = some f) :
    f.uuid = uuid ∧ f.version = version ∧ f.kids = kids ∧
      ∃ dl, unpackBE32 (pySlice b pos 4) = some dl ∧ f.data = pySlice b (pos + 4) dl := by
  unfold parse_cenc_tail at h
  cases hdl : unpackBE32 (pySlice b pos 4) with
  | none => rw [hdl] at h; exact Option.noConfusion h
  | some dl =>
      rw [hdl] at h
      injection h with h
      subst h
      exact ⟨rfl, rfl, rfl, dl, rfl, rfl⟩

theorem parse_cenc_bytes_some {b : Bytes} {f : CencFields} (h : parse_cenc_bytes b = some f) :
    unpackLE32 (pySlice b 8 4) = some f.version ∧ (f.version ≠ 1 → f.kids = []) ∧
      ∃ pos dl, unpackBE32 (pySlice b pos 4) = some dl ∧ f.data = pySlice b (pos + 4) dl := by
  unfold parse_cenc_bytes at h
  cases hA : unpackBE32 (pySlice b 0 4) with
  | none => simp only [hA] at h; exact Option.noConfusion h
  | some lv =>
  simp only [hA] at h
  cases hB : unpackBE32 (pySlice b 4 4) with
  | none => simp only [hB] at h; exact Option.noConfusion h
  | some pv =>
  simp only [hB] at h
  cases hV : unpackLE32 (pySlice b 8 4) with
  | none => simp only [hV] at h; exact Option.noConfusion h
  | some version =>
  simp only [hV] at h
  by_cases hv : version = 1
  · rw [if_pos hv] at h
    cases hC : unpackBE32 (pySlice b 28 4) with
    | none => simp only [hC] at h; exact Option.noConfusion h
    | some num_kids =>
        simp only [hC] at h
        obtain ⟨huu, hver, hkids, dl, hdl, hdata⟩ := parse_cenc_tail_some h
        refine ⟨by rw [hver], fun hne => absurd (by rw [hver]; exact hv) hne,
          32 + num_kids * 16, dl, hdl, hdata⟩
  · rw [if_neg hv] at h
    obtain ⟨huu, hver, hkids, dl, hdl, hdata⟩ := parse_cenc_tail_some h
    exact ⟨by rw [hver], fun _ => hkids, 28, dl, hdl, hdata⟩

theorem parse_data_bound {b : Bytes} {f : CencFields} (hb : isBytes b)
    (h : parse_cenc_bytes b = some f) : isBytes f.data ∧ f.data.length < 4294967296 := by
  obtain ⟨-, -, pos, dl, hdl, hdata⟩ := parse_cenc_bytes_some h
  have hdlB : isBytes (pySlice b pos 4) := by
    intro x hx
    unfold pySlice at hx
    exact hb x (List.mem_of_mem_drop (List.mem_of_mem_take hx))
  have hlt : dl < 4294967296 := unpackBE32_lt hdl hdlB
  constructor
  · intro x hx
    rw [hdata] at hx
    unfold pySlice at hx
    exact hb x (List.mem_of_mem_drop (List.mem_of_mem_take hx))
  · rw [hdata, length_pySlice]
    omega

/-! ### Truncated boxes -/

theorem unpackBE32_take_none (l : Bytes) (pos t : Nat) (h : t < pos + 4) :
    unpackBE32 (pySlice (l.take t) pos 4) = none := by
  apply unpackBE32_eq_none
  rw [length_pySlice, List.length_take]
  omega

theorem unpackLE32_take_none (l : Bytes) (pos t : Nat) (h : t < pos + 4) :
    unpackLE32 (pySlice (l.take t) pos 4) = none := by
  apply unpackLE32_eq_none
  rw [length_pySlice, List.length_take]
  omega

theorem parse_truncated_cencBox (data uuid : Bytes) (kids : List Bytes) (t : Nat)
    (hu : uuid.length = 16) (hk : ∀ kid ∈ kids, kid.length = 16)
    (hkc : kids.length < 4294967296)
    (ht : t < 32 + (if kids = [] then 0 else 4 + 16 * kids.length)) :
    parse_cenc_bytes ((cencBox data uuid kids).take t) = none := by
  have hr0 : pySlice (cencBox data uuid kids) 0 4 = be32 (cencLen data kids) :=
    pySlice_at _ [] (be32 (cencLen data kids)) (WIDEVINE_PSSH ++
      (le32 (if kids = [] then 0 else 1) ++ (uuid ++ (kidRegion kids ++
      (be32 data.length ++ data))))) 0 4 (by simp [cencBox]) rfl rfl
  have hr4 : pySlice (cencBox data uuid kids) 4 4 = WIDEVINE_PSSH :=
    pySlice_at _ (be32 (cencLen data kids)) WIDEVINE_PSSH
      (le32 (if kids = [] then 0 else 1) ++ (uuid ++ (kidRegion kids ++
      (be32 data.length ++ data)))) 4 4 (by simp [cencBox]) (length_be32 _).symm rfl
  have hr8 : pySlice (cencBox data uuid kids) 8 4 = le32 (if kids = [] then 0 else 1) :=
    pySlice_at _ (be32 (cencLen data kids) ++ WIDEVINE_PSSH)
      (le32 (if kids = [] then 0 else 1)) (uuid ++ (kidRegion kids ++
      (be32 data.length ++ data))) 8 4 (by simp [cencBox, List.append_assoc])
      (by simp [length_be32, length_WIDEVINE_PSSH]) rfl
  rcases Nat.lt_or_ge t 4 with h4 | h4
  · simp only [parse_cenc_bytes, unpackBE32_take_none _ 0 t (by omega)]
  rcases Nat.lt_or_ge t 8 with h8 | h8
  · have e0 : pySlice ((cencBox data uuid kids).take t) 0 4 = be32 (cencLen data kids) := by
      rw [pySlice_take_of_le _ _ _ _ (by omega)]
      exact hr0
    simp only [parse_cenc_bytes, e0, unpackBE32_be32,
      unpackBE32_take_none _ 4 t (by omega)]
  rcases Nat.lt_or_ge t 12 with h12 | h12
  · have e0 : pySlice ((cencBox data uuid kids).take t) 0 4 = be32 (cencLen data kids) := by
      rw [pySlice_take_of_le _ _ _ _ (by omega)]
      exact hr0
    have e4 : pySlice ((cencBox data uuid kids).take t) 4 4 = WIDEVINE_PSSH := by
      rw [pySlice_take_of_le _ _ _ _ (by omega)]
      exact hr4
    obtain ⟨pv, hpv⟩ := unpackBE32_of_length length_WIDEVINE_PSSH
    simp only [parse_cenc_bytes, e0, e4, unpackBE32_be32, hpv,
      unpackLE32_take_none _ 8 t (by omega)]
  have e0 : pySlice ((cencBox data uuid kids).take t) 0 4 = be32 (cencLen data kids) := by
    rw [pySlice_take_of_le _ _ _ _ (by omega)]
    exact hr0
  have e4 : pySlice ((cencBox data uuid kids).take t) 4 4 = WIDEVINE_PSSH := by
    rw [pySlice_take_of_le _ _ _ _ (by omega)]
    exact hr4
  have e8 : pySlice ((cencBox data uuid kids).take t) 8 4 =
      le32 (if kids = [] then 0 else 1) := by
    rw [pySlice_take_of_le _ _ _ _ (by omega)]
    exact hr8
  obtain ⟨pv, hpv⟩ := unpackBE32_of_length length_WIDEVINE_PSSH
  rcases eq_or_ne kids [] with hkids | hkids
  · subst hkids
    simp only [eq_self_iff_true, if_true] at e8 ht
    simp only [parse_cenc_bytes, parse_cenc_tail, e0, e4, e8, unpackBE32_be32, hpv,
      unpackLE32_le32, Nat.zero_mod, unpackBE32_take_none _ 28 t (by omega)]
    norm_num
  · simp only [if_neg hkids] at e8 ht
    rcases Nat.lt_or_ge t 32 with h32 | h32
    · simp only [parse_cenc_bytes, parse_cenc_tail, e0, e4, e8, unpackBE32_be32, hpv,
        unpackLE32_le32, unpackBE32_take_none _ 28 t (by omega)]
      norm_num
    · have hr28 : pySlice (cencBox data uuid kids) 28 4 = be32 kids.length :=
        pySlice_at _ (be32 (cencLen data kids) ++ WIDEVINE_PSSH ++ le32 1 ++ uuid)
          (be32 kids.length) (kids.flatten ++ (be32 data.length ++ data)) 28 4
          (by simp [cencBox, kidRegion, if_neg hkids, List.append_assoc])
          (by simp [length_be32, length_WIDEVINE_PSSH, length_le32, hu]) rfl
      have e28 : pySlice ((cencBox data uuid kids).take t) 28 4 = be32 kids.length := by
        rw [pySlice_take_of_le _ _ _ _ (by omega)]
        exact hr28
      simp only [parse_cenc_bytes, parse_cenc_tail, e0, e4, e8, e28, unpackBE32_be32, hpv,
        unpackLE32_le32, Nat.mod_eq_of_lt hkc,
        unpackBE32_take_none _ (32 + kids.length * 16) t (by omega)]
      norm_num

/-! ### The full pipeline on encoder output -/

theorem parse_round (data uuid : Bytes) (kids : List Bytes) (tr : Bytes)
    (hu : uuid.length = 16) (hk16 : ∀ kid ∈ kids, kid.length = 16)
    (hdB : isBytes data) (huB : isBytes uuid) (hkB : ∀ kid ∈ kids, isBytes kid)
    (htB : isBytes tr)
    (hd : data.length < 4294967296) (hkc : kids.length < 4294967296) :
    parse_cenc_init (b64encode (cenc_init_bytes data uuid kids ++ tr)) =
      some ⟨uuid, (if kids = [] then 0 else 1), data, kids⟩ := by
  have hBox : isBytes (cenc_init_bytes data uuid kids ++ tr) := by
    rw [cenc_init_bytes_eq data uuid kids hu hk16]
    exact isBytes_append (isBytes_cencBox hdB huB hkB) htB
  simp only [parse_cenc_init, b64decode_b64encode _ hBox]
  rw [cenc_init_bytes_eq data uuid kids hu hk16, cencBox_append]
  exact parse_cencBox (be32 (cencLen data kids)) data uuid tr kids (length_be32 _) hu hk16
    hkc hd

/-! ### The claims -/

/-- C1: round-trip identity.  For every byte payload `p`, 16-byte scheme id
`s` and ordered list `k` of 16-byte key ids (counts within the u32 range the
encoder can represent), decoding the encoded box returns the scheme id, the
version (1 exactly when `k` is non-empty, else 0), the payload and the key
ids in their original order. -/
theorem claim1_round_trip (p s : Bytes) (k : List Bytes)
    (hs : s.length = 16) (hk16 : ∀ kid ∈ k, kid.length = 16)
    (hpB : isBytes p) (hsB : isBytes s) (hkB : ∀ kid ∈ k, isBytes kid)
    (hp : p.length < 4294967296) (hkc : k.length < 4294967296) :
    parse_cenc_init (cenc_init (some p) (some s) (some k)) =
      some ⟨s, (if k = [] then 0 else 1), p, k⟩ := by
  have hs' : s ≠ [] := by
    intro h
    rw [h] at hs
    simp at hs
  have hkk : pyOr (some k) [] = k := by
    cases k with
    | nil => rfl
    | cons a t => rfl
  unfold cenc_init
  rw [pyOr_self, pyOr_some_ne s WIDEVINE_UUID hs', hkk]
  have h := parse_round p s k [] hs hk16 hpB hsB hkB isBytes_nil hp hkc
  rw [List.append_nil] at h
  exact h

/-- Witness for C1 at a concrete input. -/
theorem claim1_round_trip_witness :
    parse_cenc_init (cenc_init (some [1]) (some (List.replicate 16 0)) (some [])) =
      some ⟨List.replicate 16 0, 0, [1], []⟩ :=
  claim1_round_trip [1] (List.replicate 16 0) [] (by decide) (by simp) (by decide)
    (by decide) (by simp) (by decide) (by decide)

/-- C3: length invariant.  The buffer built by `cenc_init` has total length
`32 + len(p)` plus, when key ids are present, `4 + 16 * len(k)`, and its
first four bytes hold exactly that length as a big-endian u32. -/
theorem claim3_length_invariant (p s : Bytes) (k : List Bytes)
    (hs : s.length = 16) (hk16 : ∀ kid ∈ k, kid.length = 16)
    (hL : 32 + p.length + (if k = [] then 0 else 4 + 16 * k.length) < 4294967296) :
    (cenc_init_bytes p s k).length =
      32 + p.length + (if k = [] then 0 else 4 + 16 * k.length) ∧
    unpackBE32 (pySlice (cenc_init_bytes p s k) 0 4) =
      some (cenc_init_bytes p s k).length := by
  have hbox := cenc_init_bytes_eq p s k hs hk16
  have hclen : cencLen p k = 32 + p.length + (if k = [] then 0 else 4 + 16 * k.length) := by
    unfold cencLen
    rcases eq_or_ne k [] with hk0 | hk0 <;> simp [hk0] <;> omega
  have hlen : (cenc_init_bytes p s k).length =
      32 + p.length + (if k = [] then 0 else 4 + 16 * k.length) := by
    rw [hbox, cencBox_length p s k hs hk16, hclen]
  refine ⟨hlen, ?_⟩
  have h0 : pySlice (cenc_init_bytes p s k) 0 4 = be32 (cencLen p k) := by
    rw [hbox]
    exact pySlice_at _ [] (be32 (cencLen p k)) (WIDEVINE_PSSH ++
      (le32 (if k = [] then 0 else 1) ++ (s ++ (kidRegion k ++ (be32 p.length ++ p)))))
      0 4 (by simp [cencBox]) rfl rfl
  rw [h0, unpackBE32_be32, hlen, hclen, Nat.mod_eq_of_lt hL]

/-- Witness for C3 at a concrete input. -/
theorem claim3_length_invariant_witness :
    (cenc_init_bytes [1, 2] (List.replicate 16 0) []).length =
      32 + [1, 2].length + (if ([] : List Bytes) = [] then 0
        else 4 + 16 * ([] : List Bytes).length) ∧
    unpackBE32 (pySlice (cenc_init_bytes [1, 2] (List.replicate 16 0) []) 0 4) =
      some (cenc_init_bytes [1, 2] (List.replicate 16 0) []).length :=
  claim3_length_invariant [1, 2] (List.replicate 16 0) [] (by decide) (by simp) (by decide)

/-- C4: downgrade no-op conditions.  Whenever the input decodes to a box
whose version is not 1, or whose payload is empty, or whose scheme id is not
the Widevine UUID, `cenc_version1to0` returns its input unchanged. -/
theorem claim4_downgrade_noop (x : Bytes) (f : CencFields)
    (hp : parse_cenc_init x = some f)
    (hc : f.version ≠ 1 ∨ f.data = [] ∨ f.uuid ≠ WIDEVINE_UUID) :
    cenc_version1to0 x = some x := by
  simp only [cenc_version1to0, hp]
  rw [if_pos hc]

/-- Witness for C4 at a concrete input. -/
theorem claim4_downgrade_noop_witness :
    cenc_version1to0 (cenc_init (some [1]) (some (List.replicate 16 0)) (some [])) =
      some (cenc_init (some [1]) (some (List.replicate 16 0)) (some [])) :=
  claim4_downgrade_noop (cenc_init (some [1]) (some (List.replicate 16 0)) (some []))
    ⟨List.replicate 16 0, 0, [1], []⟩ (by decide) (by decide)

/-- C5: downgrade idempotence.  Whenever `cenc_version1to0` succeeds, applying
it to its own output reproduces that output. -/
theorem claim5_downgrade_idempotent (x y : Bytes) (h : cenc_version1to0 x = some y) :
    cenc_version1to0 y = some y := by
  unfold cenc_version1to0 at h
  cases hp : parse_cenc_init x with
  | none => simp only [hp] at h; exact Option.noConfusion h
  | some f =>
  simp only [hp] at h
  by_cases hc : f.version ≠ 1 ∨ f.data = [] ∨ f.uuid ≠ WIDEVINE_UUID
  · rw [if_pos hc] at h
    injection h with h
    subst h
    simp only [cenc_version1to0, hp]
    rw [if_pos hc]
  · rw [if_neg hc] at h
    injection h with h
    subst h
    push_neg at hc
    obtain ⟨hv1, hdne, huW⟩ := hc
    obtain ⟨buf, hbuf, hpb⟩ : ∃ buf, b64decode x = some buf ∧ parse_cenc_bytes buf = some f := by
      unfold parse_cenc_init at hp
      cases hb : b64decode x with
      | none => simp only [hb] at hp; exact Option.noConfusion hp
      | some buf =>
          simp only [hb] at hp
          exact ⟨buf, rfl, hp⟩
    have hbB : isBytes buf := isBytes_of_b64decode x buf hbuf
    obtain ⟨hdB, hdlt⟩ := parse_data_bound hbB hpb
    unfold cenc_init
    rw [pyOr_some_ne f.data [] hdne, pyOr_none, pyOr_none]
    have hparse := parse_round f.data WIDEVINE_UUID [] [] length_WIDEVINE_UUID (by simp)
      hdB isBytes_WIDEVINE_UUID (by simp) isBytes_nil hdlt (by norm_num)
    rw [List.append_nil] at hparse
    simp only [eq_self_iff_true, if_true] at hparse
    simp only [cenc_version1to0, hparse]
    rw [if_pos (Or.inl (by norm_num))]

/-- Witness for C5 at a concrete input: a version-1 Widevine box actually
downgraded, then downgraded again. -/
theorem claim5_downgrade_idempotent_witness :
    cenc_version1to0 (cenc_init (some [7]) none none) =
      some (cenc_init (some [7]) none none) :=
  claim5_downgrade_idempotent
    (cenc_init (some [7]) none (some [List.replicate 16 9]))
    (cenc_init (some [7]) none none) (by decide)

/-- C6: version field encoding.  The four bytes at offset 8 of an encoded box
hold the version little-endian, the version is 1 exactly when the kid list is
non-empty, the kid count when present is big-endian at offset 28, and the
decoder reads the same four bytes little-endian and yields empty kids for any
version other than 1. -/
theorem claim6_version_encoding (p s : Bytes) (k : List Bytes)
    (hs : s.length = 16) (hk16 : ∀ kid ∈ k, kid.length = 16) :
    pySlice (cenc_init_bytes p s k) 8 4 = le32 (if k = [] then 0 else 1) ∧
    ((if k = [] then 0 else 1) = 1 ↔ k ≠ []) ∧
    (k ≠ [] → pySlice (cenc_init_bytes p s k) 28 4 = be32 k.length) ∧
    (∀ (b : Bytes) (f : CencFields), parse_cenc_bytes b = some f →
      unpackLE32 (pySlice b 8 4) = some f.version ∧ (f.version ≠ 1 → f.kids = [])) := by
  have hbox := cenc_init_bytes_eq p s k hs hk16
  refine ⟨?_, ?_, ?_, ?_⟩
  · rw [hbox]
    exact pySlice_at _ (be32 (cencLen p k) ++ WIDEVINE_PSSH)
      (le32 (if k = [] then 0 else 1)) (s ++ (kidRegion k ++ (be32 p.length ++ p))) 8 4
      (by simp [cencBox, List.append_assoc])
      (by simp [length_be32, length_WIDEVINE_PSSH]) rfl
  · rcases eq_or_ne k [] with hk0 | hk0 <;> simp [hk0]
  · intro hk0
    rw [hbox]
    exact pySlice_at _ (be32 (cencLen p k) ++ WIDEVINE_PSSH ++ le32 1 ++ s)
      (be32 k.length) (k.flatten ++ (be32 p.length ++ p)) 28 4
      (by simp [cencBox, kidRegion, if_neg hk0, List.append_assoc])
      (by simp [length_be32, length_WIDEVINE_PSSH, length_le32, hs]) rfl
  · intro b f hf
    obtain ⟨h1, h2, -⟩ := parse_cenc_bytes_some hf
    exact ⟨h1, h2⟩

/-- Witness for C6 at a concrete input. -/
theorem claim6_version_encoding_witness :
    pySlice (cenc_init_bytes [5] (List.replicate 16 0) [List.replicate 16 7]) 8 4 =
      le32 1 :=
  (claim6_version_encoding [5] (List.replicate 16 0) [List.replicate 16 7]
    (by decide) (by decide)).1

set_option maxRecDepth 10000 in
/-- C7: the concrete scenario.  Payload `[1, 2]`, an all-zero scheme id and
two kids (sixteen 0xAA bytes, sixteen 0xBB bytes) produce a 70-byte buffer
whose bytes 8-11 decode little-endian to 1, whose bytes 28-31 decode
big-endian to 2 and whose final two bytes are the payload; decoding returns
the original fields exactly. -/
theorem claim7_concrete_scenario :
    (cenc_init_bytes [1, 2] (List.replicate 16 0)
        [List.replicate 16 170, List.replicate 16 187]).length = 70 ∧
    unpackLE32 (pySlice (cenc_init_bytes [1, 2] (List.replicate 16 0)
        [List.replicate 16 170, List.replicate 16 187]) 8 4) = some 1 ∧
    unpackBE32 (pySlice (cenc_init_bytes [1, 2] (List.replicate 16 0)
        [List.replicate 16 170, List.replicate 16 187]) 28 4) = some 2 ∧
    (cenc_init_bytes [1, 2] (List.replicate 16 0)
        [List.replicate 16 170, List.replicate 16 187]).drop 68 = [1, 2] ∧
    parse_cenc_init (cenc_init (some [1, 2]) (some (List.replicate 16 0))
        (some [List.replicate 16 170, List.replicate 16 187])) =
      some ⟨List.replicate 16 0, 1, [1, 2],
        [List.replicate 16 170, List.replicate 16 187]⟩ := by
  decide

/-- C8: declared-length leniency.  Replacing the four bytes at offset 0 of a
well-formed box by any other four bytes leaves decoding unchanged: the
declared length is read but never cross-checked. -/
theorem claim8_declared_length_leniency (p s w : Bytes) (k : List Bytes)
    (hs : s.length = 16) (hk16 : ∀ kid ∈ k, kid.length = 16)
    (hw : w.length = 4) (hwB : isBytes w)
    (hpB : isBytes p) (hsB : isBytes s) (hkB : ∀ kid ∈ k, isBytes kid)
    (hp : p.length < 4294967296) (hkc : k.length < 4294967296) :
    parse_cenc_init (b64encode (w ++ (cenc_init_bytes p s k).drop 4)) =
      parse_cenc_init (b64encode (cenc_init_bytes p s k)) := by
  have hbox := cenc_init_bytes_eq p s k hs hk16
  have hBoxB : isBytes (cenc_init_bytes p s k) := by
    rw [hbox]
    exact isBytes_cencBox hpB hsB hkB
  have hdrop : (cenc_init_bytes p s k).drop 4 = WIDEVINE_PSSH ++
      (le32 (if k = [] then 0 else 1) ++ (s ++ (kidRegion k ++ (be32 p.length ++ p)))) := by
    rw [hbox]
    unfold cencBox
    rw [show (4 : Nat) = (be32 (cencLen p k)).length from (length_be32 _).symm,
      List.drop_left]
  have hLB : isBytes (w ++ (cenc_init_bytes p s k).drop 4) :=
    isBytes_append hwB (fun x hx => hBoxB x (List.mem_of_mem_drop hx))
  simp only [parse_cenc_init, b64decode_b64encode _ hLB, b64decode_b64encode _ hBoxB]
  rw [hdrop, hbox]
  have hL := parse_cencBox w p s [] k hw hs hk16 hkc hp
  have hR := parse_cencBox (be32 (cencLen p k)) p s [] k (length_be32 _) hs hk16 hkc hp
  rw [List.append_nil] at hL hR
  rw [hL]
  unfold cencBox
  rw [hR]

/-- Witness for C8 at a concrete input. -/
theorem claim8_declared_length_leniency_witness :
    parse_cenc_init (b64encode ([9, 9, 9, 9] ++
        (cenc_init_bytes [1] (List.replicate 16 0) []).drop 4)) =
      parse_cenc_init (b64encode (cenc_init_bytes [1] (List.replicate 16 0) [])) :=
  claim8_declared_length_leniency [1] (List.replicate 16 0) [9, 9, 9, 9] []
    (by decide) (by simp) (by decide) (by decide) (by decide) (by decide) (by simp)
    (by decide) (by decide)

/-- C9: trailing bytes are ignored.  Appending any byte suffix to a
well-formed box buffer before base64-encoding leaves decoding successful and
its result unchanged. -/
theorem claim9_trailing_ignored (p s tr : Bytes) (k : List Bytes)
    (hs : s.length = 16) (hk16 : ∀ kid ∈ k, kid.length = 16)
    (hpB : isBytes p) (hsB : isBytes s) (hkB : ∀ kid ∈ k, isBytes kid)
    (htB : isBytes tr)
    (hp : p.length < 4294967296) (hkc : k.length < 4294967296) :
    parse_cenc_init (b64encode (cenc_init_bytes p s k ++ tr)) =
      parse_cenc_init (b64encode (cenc_init_bytes p s k)) ∧
    parse_cenc_init (b64encode (cenc_init_bytes p s k ++ tr)) =
      some ⟨s, (if k = [] then 0 else 1), p, k⟩ := by
  have h1 := parse_round p s k tr hs hk16 hpB hsB hkB htB hp hkc
  have h2 := parse_round p s k [] hs hk16 hpB hsB hkB isBytes_nil hp hkc
  rw [List.append_nil] at h2
  exact ⟨h1.trans h2.symm, h1⟩

/-- Witness for C9 at a concrete input. -/
theorem claim9_trailing_ignored_witness :
    parse_cenc_init (b64encode (cenc_init_bytes [1] (List.replicate 16 0) [] ++ [3, 4])) =
      parse_cenc_init (b64encode (cenc_init_bytes [1] (List.replicate 16 0) [])) ∧
    parse_cenc_init (b64encode (cenc_init_bytes [1] (List.replicate 16 0) [] ++ [3, 4])) =
      some ⟨List.replicate 16 0, 0, [1], []⟩ :=
  claim9_trailing_ignored [1] (List.replicate 16 0) [3, 4] [] (by decide) (by simp)
    (by decide) (by decide) (by simp) (by decide) (by decide) (by decide)

/-- C10: falsy arguments trigger the defaults.  An empty scheme id selects
the Widevine constant, and an empty payload or kid list is interchangeable
with omitting the argument. -/
theorem claim10_falsy_defaults (p : Bytes) (k : List Bytes) (u : Option Bytes)
    (po : Option Bytes) (ko : Option (List Bytes)) :
    cenc_init (some p) (some []) (some k) =
      cenc_init (some p) (some WIDEVINE_UUID) (some k) ∧
    cenc_init (some []) u ko = cenc_init none u ko ∧
    cenc_init po u (some []) = cenc_init po u none := by
  refine ⟨?_, rfl, rfl⟩
  unfold cenc_init
  rw [pyOr_some_nil, pyOr_some_ne WIDEVINE_UUID WIDEVINE_UUID (by decide)]

/-- C2 counterexample: a box declaring a 2-byte payload but truncated to
carry only 1 payload byte still decodes to a result (with the payload cut
short), instead of failing. -/
theorem claim2_counterexample :
    parse_cenc_init (b64encode ((cenc_init_bytes [1, 2] (List.replicate 16 0) []).take 33)) =
      some ⟨List.replicate 16 0, 0, [1], []⟩ := by
  decide

/-- C2 (amended): truncation detection holds only before the payload region.
Truncating a well-formed box anywhere strictly before the payload bytes makes
decoding fail. -/
theorem claim2_truncation_before_payload (p s : Bytes) (k : List Bytes) (t : Nat)
    (hs : s.length = 16) (hk16 : ∀ kid ∈ k, kid.length = 16)
    (hpB : isBytes p) (hsB : isBytes s) (hkB : ∀ kid ∈ k, isBytes kid)
    (hkc : k.length < 4294967296)
    (ht : t < 32 + (if k = [] then 0 else 4 + 16 * k.length)) :
    parse_cenc_init (b64encode ((cenc_init_bytes p s k).take t)) = none := by
  have hbox := cenc_init_bytes_eq p s k hs hk16
  have htake : isBytes ((cenc_init_bytes p s k).take t) := by
    apply isBytes_take
    rw [hbox]
    exact isBytes_cencBox hpB hsB hkB
  simp only [parse_cenc_init, b64decode_b64encode _ htake]
  rw [hbox]
  exact parse_truncated_cencBox p s k t hs hk16 hkc ht

/-- Witness for the amended C2: only 10 of the 16 scheme id bytes present. -/
theorem claim2_truncation_before_payload_witness :
    parse_cenc_init (b64encode ((cenc_init_bytes [1, 2]
        (List.replicate 16 0) []).take 22)) = none :=
  claim2_truncation_before_payload [1, 2] (List.replicate 16 0) [] 22 (by decide)
    (by simp) (by decide) (by decide) (by simp) (by decide) (by decide)
